/-
Verification of the Vidzyme video-generation backend.

This file gives a shallow embedding, in Lean 4, of the parts of the
repository that the specification talks about:

* `utils/queue_manager.py` — `RateLimiter` (sliding-window rate limiting),
  `QueueManager.add_task` (priority queue kept sorted, stable, descending)
  and `QueueManager._process_task` (retry logic);
* `utils/tts/tts_factory.py` — `TTSFactory.get_optimal_provider_for_text`
  (cost/quality provider selection) and
  `TTSFactory.text_to_speech_with_fallback` (fallback orchestration);
* `scheduler.py` — `VideoScheduler._update_scheduled_video_execution` and
  the firing of scheduled jobs;
* `utils/write_script.py` / `utils/voice_gen.py` — script line splitting.

Python wall-clock times and cost estimates (floats used only for
comparisons and subtraction) are modelled as rationals; Python lists as
Lean lists; a Python method that can raise is modelled with `Option` /
`Except`, `none` / `.error` standing for the raised exception.  Python's
`list.sort` (Timsort) is modelled by its specification — a stable sort —
realised by `List.insertionSort`, and the stability facts proved about it
are exactly the ones `list.sort` guarantees.
-/
import Mathlib

namespace Vidzyme

/-! ## RateLimiter (utils/queue_manager.py, lines 49-77)

```python
class RateLimiter:
    def __init__(self, max_calls: int, time_window: int):
        self.max_calls = max_calls
        self.time_window = time_window
        self.calls = []

    def can_proceed(self) -> bool:
        with self.lock:
            now = time.time()
            self.calls = [t for t in self.calls if now - t < self.time_window]
            if len(self.calls) < self.max_calls:
                self.calls.append(now)
                return True
            return False

    def wait_time(self) -> float:
        with self.lock:
            if len(self.calls) < self.max_calls:
                return 0
            oldest_call = min(self.calls)
            return self.time_window - (time.time() - oldest_call)
```
The lock only serialises calls; the sequential model below feeds the
successive values of `time.time()` in explicitly. -/

structure RateLimiter where
  max_calls : Nat
  time_window : ℚ
  calls : List ℚ
deriving DecidableEq, Repr

/-- The list comprehension in `can_proceed`: drop the calls that fell out
of the trailing window at time `now`. -/
def pruneCalls (rl : RateLimiter) (now : ℚ) : List ℚ :=
  rl.calls.filter (fun call_time => now - call_time < rl.time_window)

/-- `RateLimiter.can_proceed`, with `now = time.time()` passed in; returns
the boolean result and the updated limiter. -/
def canProceed (rl : RateLimiter) (now : ℚ) : Bool × RateLimiter :=
  let calls := pruneCalls rl now
  if calls.length < rl.max_calls then
    (true, { rl with calls := calls ++ [now] })
  else
    (false, { rl with calls := calls })

/-- `RateLimiter.wait_time`; `none` models the `ValueError` that
`min(self.calls)` raises on an empty list. -/
def waitTime (rl : RateLimiter) (now : ℚ) : Option ℚ :=
  if rl.calls.length < rl.max_calls then
    some 0
  else
    rl.calls.min?.map (fun oldest_call => rl.time_window - (now - oldest_call))

/-- `wait_time` together with the limiter state it leaves behind: the
method reads `self.calls` and never assigns to it. -/
def waitTimeState (rl : RateLimiter) (now : ℚ) : Option ℚ × RateLimiter :=
  (waitTime rl now, rl)

/-- Run a sequence of `can_proceed` calls at the given times; final
limiter state and the list of results. -/
def runCalls (rl : RateLimiter) (ts : List ℚ) : RateLimiter × List Bool :=
  match ts with
  | [] => (rl, [])
  | now :: rest =>
      let step := canProceed rl now
      let recres := runCalls step.2 rest
      (recres.1, step.1 :: recres.2)

/-- The timestamps of the calls that `can_proceed` accepted (returned
`True` for), in call order. -/
def acceptedTimes (rl : RateLimiter) (ts : List ℚ) : List ℚ :=
  match ts with
  | [] => []
  | now :: rest =>
      let step := canProceed rl now
      (if step.1 then [now] else []) ++ acceptedTimes step.2 rest

/-- `a` lies inside the trailing window of width `W` ending at time `T`,
with the same strict bound `T - a < W` that the pruning in `can_proceed`
uses. -/
def inWindow (T W a : ℚ) : Bool :=
  decide (T - a < W) && decide (a ≤ T)

lemma length_filter_le_of_imp {α : Type} (p q : α → Bool) :
    ∀ l : List α, (∀ a ∈ l, p a = true → q a = true) →
      (l.filter p).length ≤ (l.filter q).length := by
  intro l
  induction l with
  | nil => intro _; simp
  | cons x xs ih =>
      intro h
      have hxs : ∀ a ∈ xs, p a = true → q a = true :=
        fun a ha => h a (List.mem_cons_of_mem _ ha)
      by_cases hp : p x = true
      · have hq : q x = true := h x (List.mem_cons_self _ _) hp
        simpa [List.filter_cons, hp, hq] using ih hxs
      · rw [Bool.not_eq_true] at hp
        by_cases hq : q x = true
        · simp only [List.filter_cons, hp, hq, if_true, if_false,
            Bool.false_eq_true, List.length_cons]
          exact Nat.le_succ_of_le (ih hxs)
        · rw [Bool.not_eq_true] at hq
          simpa [List.filter_cons, hp, hq] using ih hxs

lemma acceptedTimes_window_bound_aux (N : Nat) (W : ℚ) (hW : 0 < W) :
    ∀ (ts acc : List ℚ) (u : ℚ),
      ts.Sorted (· ≤ ·) →
      (∀ t ∈ ts, u ≤ t) →
      (∀ a ∈ acc, a ≤ u) →
      (∀ T, (acc.filter (inWindow T W)).length ≤ N) →
      ∀ T,
        (((acc ++ acceptedTimes
            ⟨N, W, acc.filter (fun a => decide (u - a < W))⟩ ts).filter
              (inWindow T W)).length ≤ N) := by
  intro ts
  induction ts with
  | nil =>
      intro acc u _ _ _ hcount T
      simpa [acceptedTimes] using hcount T
  | cons now rest ih =>
      intro acc u hsort hu hle hcount T
      have hunow : u ≤ now := hu now (List.mem_cons_self _ _)
      have hrest_sorted : rest.Sorted (· ≤ ·) :=
        (List.sorted_cons.mp hsort).2
      have hrest_le : ∀ t ∈ rest, now ≤ t :=
        (List.sorted_cons.mp hsort).1
      -- pruning at time `now` after an earlier pruning at time `u ≤ now`
      -- is the same as pruning at `now` alone
      have hprune :
          (acc.filter (fun a => decide (u - a < W))).filter
              (fun a => decide (now - a < W)) =
            acc.filter (fun a => decide (now - a < W)) := by
        rw [List.filter_filter]
        refine List.filter_congr ?_
        intro a _
        by_cases hnw : now - a < W
        · have huw : u - a < W := by
            have : u - a ≤ now - a := by linarith
            linarith
          simp [hnw, huw]
        · simp [hnw]
      by_cases hlen :
          (acc.filter (fun a => decide (now - a < W))).length < N
      -- accepted call
      · have hstep :
            canProceed ⟨N, W, acc.filter (fun a => decide (u - a < W))⟩ now =
              (true, ⟨N, W,
                acc.filter (fun a => decide (now - a < W)) ++ [now]⟩) := by
          simp [canProceed, pruneCalls, hprune, hlen]
        have hcalls' :
            acc.filter (fun a => decide (now - a < W)) ++ [now] =
              (acc ++ [now]).filter (fun a => decide (now - a < W)) := by
          rw [List.filter_append]
          simp [hW]
        have hcount' :
            ∀ T', (((acc ++ [now]).filter (inWindow T' W)).length ≤ N) := by
          intro T'
          rw [List.filter_append]
          by_cases hin : inWindow T' W now = true
          · have hnowT : now ≤ T' := by
              have := hin
              simp only [inWindow, Bool.and_eq_true, decide_eq_true_eq] at this
              exact this.2
            have hmono :
                ((acc.filter (inWindow T' W)).length ≤
                  (acc.filter (fun a => decide (now - a < W))).length) := by
              refine length_filter_le_of_imp _ _ acc ?_
              intro a _ hwin
              simp only [inWindow, Bool.and_eq_true, decide_eq_true_eq] at hwin
              have : now - a ≤ T' - a := by linarith
              simp only [decide_eq_true_eq]
              linarith [hwin.1]
            simp only [hin, List.filter_cons, List.filter_nil, if_true,
              List.length_append, List.length_cons, List.length_nil]
            omega
          · rw [Bool.not_eq_true] at hin
            simpa [hin] using hcount T'
        have hih := ih (acc ++ [now]) now hrest_sorted hrest_le
          (by
            intro a ha
            rcases List.mem_append.mp ha with h1 | h1
            · exact le_trans (hle a h1) hunow
            · simp only [List.mem_singleton] at h1
              simp [h1])
          hcount' T
        rw [← hcalls'] at hih
        calc
          (((acc ++ acceptedTimes
              ⟨N, W, acc.filter (fun a => decide (u - a < W))⟩
                (now :: rest)).filter (inWindow T W)).length)
              = (((acc ++ [now]) ++ acceptedTimes
                  ⟨N, W, acc.filter (fun a => decide (now - a < W)) ++ [now]⟩
                    rest).filter (inWindow T W)).length := by
                rw [acceptedTimes, hstep]
                simp [List.append_assoc]
          _ ≤ N := hih
      -- rejected call
      · have hstep :
            canProceed ⟨N, W, acc.filter (fun a => decide (u - a < W))⟩ now =
              (false, ⟨N, W, acc.filter (fun a => decide (now - a < W))⟩) := by
          simp [canProceed, pruneCalls, hprune, hlen]
        have hih := ih acc now hrest_sorted hrest_le
          (fun a ha => le_trans (hle a ha) hunow) hcount T
        calc
          (((acc ++ acceptedTimes
              ⟨N, W, acc.filter (fun a => decide (u - a < W))⟩
                (now :: rest)).filter (inWindow T W)).length)
              = ((acc ++ acceptedTimes
                  ⟨N, W, acc.filter (fun a => decide (now - a < W))⟩
                    rest).filter (inWindow T W)).length := by
                rw [acceptedTimes, hstep]
                simp
          _ ≤ N := hih

lemma runCalls_zero_max_calls (W : ℚ) (ts : List ℚ) :
    runCalls ⟨0, W, []⟩ ts = (⟨0, W, []⟩, ts.map (fun _ => false)) := by
  induction ts with
  | nil => rfl
  | cons now rest ih =>
      have hstep : canProceed ⟨0, W, []⟩ now = (false, ⟨0, W, []⟩) := by
        simp [canProceed, pruneCalls]
      simp [runCalls, hstep, ih]

/-- **C1** (amended: the window is positive and the successive values of
`time.time()` are nondecreasing, as wall-clock time is).  At most `N`
accepted calls have timestamps inside any trailing window of `W` seconds;
and a single `can_proceed` call returns `True` and appends the current
time exactly when fewer than `max_calls` recorded timestamps lie within
the last `time_window` seconds, otherwise it returns `False` and appends
nothing.  With arbitrary (non-monotone) call times the window bound fails:
see `can_proceed_arbitrary_times_counterexample`. -/
theorem can_proceed_sliding_window_invariant
    (N : Nat) (W : ℚ) (ts : List ℚ) (T : ℚ)
    (hW : 0 < W) (hts : ts.Sorted (· ≤ ·)) :
    ((acceptedTimes ⟨N, W, []⟩ ts).filter (inWindow T W)).length ≤ N
    ∧ ∀ (rl : RateLimiter) (now : ℚ),
        ((canProceed rl now).1 = true ↔
            (pruneCalls rl now).length < rl.max_calls)
        ∧ ((canProceed rl now).1 = true →
            (canProceed rl now).2.calls = pruneCalls rl now ++ [now])
        ∧ ((canProceed rl now).1 = false →
            (canProceed rl now).2.calls = pruneCalls rl now) := by
  constructor
  · cases ts with
    | nil => simp [acceptedTimes]
    | cons now rest =>
        have haux := acceptedTimes_window_bound_aux N W hW (now :: rest) [] now
          hts
          (by
            intro t ht
            rcases List.mem_cons.mp ht with h | h
            · simp [h]
            · exact (List.sorted_cons.mp hts).1 t h)
          (by simp)
          (by simp)
          T
        simpa using haux
  · intro rl now
    by_cases h : (pruneCalls rl now).length < rl.max_calls
    · simp [canProceed, h]
    · simp [canProceed, h]

/-- Witness for C1: `N = 2`, `W = 10`, call times `[0, 1, 2]`, `T = 2`. -/
theorem can_proceed_sliding_window_invariant_witness :
    ((acceptedTimes ⟨2, 10, []⟩ [0, 1, 2]).filter (inWindow 2 10)).length ≤ 2 :=
  (can_proceed_sliding_window_invariant 2 10 [0, 1, 2] 2 (by norm_num)
    (by norm_num [List.sorted_cons])).1

/-- Counterexample to C1 as stated ("at arbitrary times"): with
`max_calls = 2`, `time_window = 10` and the non-monotone call times
`[0, 1, 11, 2]`, every call is accepted — the call at time `11` prunes
the timestamps `0` and `1`, and the subsequent call at the earlier time
`2` is then admitted — so the three accepted timestamps `0`, `1`, `2`
all lie inside the single trailing 10-second window ending at `T = 2`,
exceeding `max_calls = 2`. -/
theorem can_proceed_arbitrary_times_counterexample :
    acceptedTimes ⟨2, 10, []⟩ [0, 1, 11, 2] = [0, 1, 11, 2]
    ∧ ((acceptedTimes ⟨2, 10, []⟩ [0, 1, 11, 2]).filter
        (inWindow 2 10)).length = 3
    ∧ ¬ (((acceptedTimes ⟨2, 10, []⟩ [0, 1, 11, 2]).filter
        (inWindow 2 10)).length ≤ 2) := by
  have hrun : acceptedTimes ⟨2, 10, []⟩ [0, 1, 11, 2] = [0, 1, 11, 2] := by
    norm_num [acceptedTimes, canProceed, pruneCalls]
  refine ⟨hrun, ?_, ?_⟩ <;>
    · rw [hrun]
      norm_num [inWindow, List.filter]

/-- **C8** (amended): with `max_calls = 0` every `can_proceed` call
returns `False` and the list of recorded timestamps stays empty; in that
state `wait_time` does not return a finite number — `min(self.calls)` is
applied to an empty list and raises `ValueError` (modelled by `none`). -/
theorem rate_limiter_zero_max_calls (W : ℚ) (ts : List ℚ) (now : ℚ) :
    (∀ b ∈ (runCalls ⟨0, W, []⟩ ts).2, b = false)
    ∧ (runCalls ⟨0, W, []⟩ ts).1 = ⟨0, W, []⟩
    ∧ waitTime (runCalls ⟨0, W, []⟩ ts).1 now = none := by
  rw [runCalls_zero_max_calls]
  refine ⟨?_, rfl, ?_⟩
  · intro b hb
    obtain ⟨a, -, heq⟩ := List.mem_map.mp hb
    simpa using heq.symm
  · rfl

/-- Counterexample to C8 as stated: the claim says `wait_time` with
`max_calls = 0` is "to be treated as an infinite wait rather than a
finite number or a crash", but the code does crash — with `max_calls = 0`
and no recorded calls, `len(self.calls) < self.max_calls` is false and
`min(self.calls)` raises `ValueError` on the empty list, modelled here by
the `none` result. -/
theorem wait_time_zero_max_calls_raises :
    waitTime ⟨0, 60, []⟩ 0 = none := by
  rfl

/-- **C10**: `wait_time` never removes expired timestamps (it returns the
limiter state unchanged), and when exactly `max_calls` timestamps are
recorded it returns `time_window - (now - oldest)`; whenever the oldest
recorded timestamp has already aged out of the window this value is
non-positive. -/
theorem wait_time_at_capacity (rl : RateLimiter) (now : ℚ)
    (hfull : rl.calls.length = rl.max_calls) (hpos : 0 < rl.max_calls) :
    (waitTimeState rl now).2 = rl
    ∧ ∃ oldest, rl.calls.min? = some oldest
        ∧ (∀ a ∈ rl.calls, oldest ≤ a)
        ∧ waitTime rl now = some (rl.time_window - (now - oldest))
        ∧ (rl.time_window ≤ now - oldest →
            rl.time_window - (now - oldest) ≤ 0) := by
  refine ⟨rfl, ?_⟩
  have hne : rl.calls ≠ [] := by
    intro h
    rw [h] at hfull
    simp at hfull
    omega
  obtain ⟨oldest, holdest⟩ : ∃ a, rl.calls.min? = some a := by
    cases h : rl.calls.min? with
    | none => exact absurd (List.min?_eq_none_iff.mp h) hne
    | some a => exact ⟨a, rfl⟩
  refine ⟨oldest, holdest, ?_, ?_, ?_⟩
  · intro a ha
    exact (List.le_min?_iff (fun a b c => le_min_iff) holdest).mp
      (le_refl oldest) a ha
  · have hnot : ¬ rl.calls.length < rl.max_calls := by omega
    simp [waitTime, hnot, holdest]
  · intro h
    linarith

/-- Witness for C10: a limiter with `max_calls = 2` holding the
timestamps `[0, 1]`, queried at time `20`, waits `10 - (20 - 0) = -10`
seconds — a non-positive wait. -/
theorem wait_time_at_capacity_witness :
    (waitTimeState ⟨2, 10, [0, 1]⟩ 20).2 = ⟨2, 10, [0, 1]⟩
    ∧ ∃ oldest, (⟨2, 10, [0, 1]⟩ : RateLimiter).calls.min? = some oldest
        ∧ (∀ a ∈ (⟨2, 10, [0, 1]⟩ : RateLimiter).calls, oldest ≤ a)
        ∧ waitTime ⟨2, 10, [0, 1]⟩ 20 = some (10 - (20 - oldest))
        ∧ ((10 : ℚ) ≤ 20 - oldest → (10 : ℚ) - (20 - oldest) ≤ 0) :=
  wait_time_at_capacity ⟨2, 10, [0, 1]⟩ 20 (by decide) (by decide)

/-! ## QueueManager tasks and the pending queue
(utils/queue_manager.py, lines 19-47, 133-142, 180-258)

`QueueTask` keeps the fields the specification talks about; the payload,
progress, creation timestamp and owner fields play no role in any claim
and are omitted.  `datetime.now()` values are modelled as rationals
passed in explicitly.

`self.pending_queue` holds task ids and the sort key dereferences
`self.tasks[tid]`; since ids are unique keys and `self.tasks` does not
change during the sort, the queue is modelled directly as the list of
the referenced `QueueTask` records.  `list.sort(key=..., reverse=True)`
is Timsort, specified as a *stable* descending sort on the key; it is
modelled by `List.insertionSort` with the corresponding relation, and
the stability actually guaranteed by `list.sort` is proved about it
(per-priority filters are preserved). -/

inductive TaskStatus where
  | pending
  | processing
  | completed
  | failed
  | cancelled
deriving DecidableEq, Repr

inductive TaskPriority where
  | low
  | normal
  | high
  | urgent
deriving DecidableEq, Repr

/-- The numeric values of the `TaskPriority` enum: LOW = 1, NORMAL = 2,
HIGH = 3, URGENT = 4. -/
def TaskPriority.value : TaskPriority → Nat
  | .low => 1
  | .normal => 2
  | .high => 3
  | .urgent => 4

structure QueueTask where
  id : String
  priority : TaskPriority
  status : TaskStatus
  started_at : Option ℚ
  completed_at : Option ℚ
  error_message : Option String
  retry_count : Nat
  max_retries : Nat
deriving DecidableEq, Repr

/-- The sort relation of `add_task`: task `t` sorts no later than task
`u` when `u`'s numeric priority is at most `t`'s
(`key=priority.value, reverse=True`). -/
def priorityGE (t u : QueueTask) : Prop :=
  u.priority.value ≤ t.priority.value

instance : DecidableRel priorityGE := fun _ _ => Nat.decLe _ _

/-- `QueueManager.add_task`: append the task, then re-sort the pending
queue by priority value, descending, stably. -/
def addTask (pending : List QueueTask) (task : QueueTask) : List QueueTask :=
  List.insertionSort priorityGE (pending ++ [task])

/-- A sequence of `add_task` calls. -/
def addTasks (pending : List QueueTask) (tasks : List QueueTask) :
    List QueueTask :=
  tasks.foldl addTask pending

/-- `_worker_loop` takes `self.pending_queue.pop(0)`: the head of the
pending queue; dispatch order is therefore the list order. -/
def popNext (pending : List QueueTask) : Option QueueTask × List QueueTask :=
  match pending with
  | [] => (none, [])
  | t :: rest => (some t, rest)

lemma filter_orderedInsert_value (a : QueueTask) (p : Nat) :
    ∀ l : List QueueTask,
      (List.orderedInsert priorityGE a l).filter
          (fun t => decide (t.priority.value = p)) =
        if a.priority.value = p then
          a :: l.filter (fun t => decide (t.priority.value = p))
        else l.filter (fun t => decide (t.priority.value = p)) := by
  intro l
  induction l with
  | nil => simp [List.orderedInsert, List.filter_cons]
  | cons b l ih =>
      rw [List.orderedInsert]
      by_cases h : priorityGE a b
      · simp only [if_pos h, List.filter_cons]
        by_cases hap : a.priority.value = p <;> simp [hap]
      · have hne : b.priority.value ≠ a.priority.value := by
          simp only [priorityGE, not_le] at h
          omega
        simp only [if_neg h, List.filter_cons, ih]
        by_cases hap : a.priority.value = p
        · have hbp : ¬ b.priority.value = p := by omega
          simp [hap, hbp]
        · by_cases hbp : b.priority.value = p <;> simp [hap, hbp]

/-- Stability of the `add_task` sort: the sublist of tasks of any fixed
priority value is unchanged by sorting. -/
lemma filter_insertionSort_value (p : Nat) :
    ∀ l : List QueueTask,
      (List.insertionSort priorityGE l).filter
          (fun t => decide (t.priority.value = p)) =
        l.filter (fun t => decide (t.priority.value = p)) := by
  intro l
  induction l with
  | nil => rfl
  | cons x xs ih =>
      rw [List.insertionSort, filter_orderedInsert_value, ih, List.filter_cons]
      by_cases hx : x.priority.value = p <;> simp [hx]

lemma sorted_addTask (pending : List QueueTask) (task : QueueTask) :
    (addTask pending task).Sorted priorityGE := by
  haveI : IsTotal QueueTask priorityGE :=
    ⟨fun a b => le_total b.priority.value a.priority.value⟩
  haveI : IsTrans QueueTask priorityGE :=
    ⟨fun a b c hab hbc => le_trans hbc hab⟩
  exact List.sorted_insertionSort priorityGE _

lemma filter_addTask (pending : List QueueTask) (task : QueueTask) (p : Nat) :
    (addTask pending task).filter (fun t => decide (t.priority.value = p)) =
      (pending ++ [task]).filter (fun t => decide (t.priority.value = p)) :=
  filter_insertionSort_value p _

lemma sorted_addTasks :
    ∀ (tasks pending : List QueueTask), pending.Sorted priorityGE →
      (addTasks pending tasks).Sorted priorityGE := by
  intro tasks
  induction tasks with
  | nil => intro pending h; exact h
  | cons t ts ih =>
      intro pending _
      exact ih (addTask pending t) (sorted_addTask pending t)

lemma filter_addTasks (p : Nat) :
    ∀ (tasks pending : List QueueTask),
      (addTasks pending tasks).filter (fun t => decide (t.priority.value = p)) =
        (pending ++ tasks).filter (fun t => decide (t.priority.value = p)) := by
  intro tasks
  induction tasks with
  | nil => intro pending; simp [addTasks]
  | cons t ts ih =>
      intro pending
      have h1 : addTasks pending (t :: ts) = addTasks (addTask pending t) ts :=
        rfl
      rw [h1, ih, List.append_cons, List.filter_append, List.filter_append,
        filter_addTask]

/-- A LOW-priority task as enqueued first in the dispatch-order
scenario (Python defaults: status PENDING, `retry_count = 0`,
`max_retries = 3`). -/
def exTaskLow : QueueTask :=
  ⟨"task-low", .low, .pending, none, none, none, 0, 3⟩

def exTaskUrgent : QueueTask :=
  ⟨"task-urgent", .urgent, .pending, none, none, none, 0, 3⟩

def exTaskNormal : QueueTask :=
  ⟨"task-normal", .normal, .pending, none, none, none, 0, 3⟩

/-- **C5**: every sequence of `add_task` calls leaves the pending queue
sorted by numeric priority, higher value first, with tasks of equal
priority in insertion order (the per-priority filter of the queue equals
the per-priority filter of the insertion sequence — stable sort); the
dispatcher pops from the head, and the three tasks enqueued with
priorities LOW, URGENT, NORMAL in that order end up in queue (and hence
dispatch) order URGENT, NORMAL, LOW. -/
theorem add_task_keeps_queue_sorted_stably :
    (∀ tasks : List QueueTask,
        (addTasks [] tasks).Sorted priorityGE
        ∧ ∀ p : Nat,
            (addTasks [] tasks).filter
                (fun t => decide (t.priority.value = p)) =
              tasks.filter (fun t => decide (t.priority.value = p)))
    ∧ addTasks [] [exTaskLow, exTaskUrgent, exTaskNormal] =
        [exTaskUrgent, exTaskNormal, exTaskLow]
    ∧ (popNext (addTasks [] [exTaskLow, exTaskUrgent, exTaskNormal])).1 =
        some exTaskUrgent := by
  refine ⟨fun tasks => ⟨sorted_addTasks tasks [] (by simp), fun p => ?_⟩,
    by decide, by decide⟩
  simpa using filter_addTasks p tasks []

/-- In a queue sorted by descending priority value, a task of strictly
higher priority sits strictly earlier than a task of lower priority. -/
lemma indexOf_lt_of_priority_gt :
    ∀ (l : List QueueTask) (a b : QueueTask), l.Sorted priorityGE →
      a ∈ l → b ∈ l → b.priority.value < a.priority.value →
      l.indexOf a < l.indexOf b := by
  intro l
  induction l with
  | nil =>
      intro a b _ ha _ _
      simp at ha
  | cons x xs ih =>
      intro a b hsort ha hb hab
      by_cases hxa : x = a
      · subst hxa
        have hxb : x ≠ b := by
          intro h
          rw [h] at hab
          omega
        rw [List.indexOf_cons_self, List.indexOf_cons_ne _ hxb]
        exact Nat.succ_pos _
      · have hxb : x ≠ b := by
          intro h
          subst h
          have hax : a ∈ xs := by
            rcases List.mem_cons.mp ha with h' | h'
            · exact absurd h'.symm hxa
            · exact h'
          have := (List.sorted_cons.mp hsort).1 a hax
          simp only [priorityGE] at this
          omega
        have hax : a ∈ xs := by
          rcases List.mem_cons.mp ha with h' | h'
          · exact absurd h'.symm hxa
          · exact h'
        have hbx : b ∈ xs := by
          rcases List.mem_cons.mp hb with h' | h'
          · exact absurd h'.symm hxb
          · exact h'
        rw [List.indexOf_cons_ne _ hxa, List.indexOf_cons_ne _ hxb]
        exact Nat.succ_lt_succ
          (ih a b (List.sorted_cons.mp hsort).2 hax hbx hab)

/-- **C9**: a retried task `r` sitting at the front of the pending queue
keeps that position only until the next `add_task`, which re-sorts the
whole queue: a newly enqueued task `t` of strictly higher priority ends
up strictly earlier in the queue (so it is dispatched first), while `r`
stays ahead of every task of its own priority class (stable sort), i.e.
retry precedence survives only against equal-or-lower priorities. -/
theorem add_task_resorts_over_retry_front (r t : QueueTask)
    (rest : List QueueTask)
    (hprio : r.priority.value < t.priority.value) :
    t ∈ addTask (r :: rest) t
    ∧ r ∈ addTask (r :: rest) t
    ∧ (addTask (r :: rest) t).indexOf t < (addTask (r :: rest) t).indexOf r
    ∧ (addTask (r :: rest) t).filter
            (fun x => decide (x.priority.value = r.priority.value)) =
        r :: rest.filter
            (fun x => decide (x.priority.value = r.priority.value)) := by
  have hperm : List.Perm (addTask (r :: rest) t) ((r :: rest) ++ [t]) :=
    List.perm_insertionSort priorityGE _
  have hmt : t ∈ addTask (r :: rest) t := hperm.mem_iff.mpr (by simp)
  have hmr : r ∈ addTask (r :: rest) t := hperm.mem_iff.mpr (by simp)
  refine ⟨hmt, hmr, ?_, ?_⟩
  · exact indexOf_lt_of_priority_gt _ t r (sorted_addTask _ _) hmt hmr hprio
  · rw [filter_addTask, List.filter_append, List.filter_cons]
    have hne : ¬ t.priority.value = r.priority.value := by omega
    simp [hne]

/-- Witness for C9: a retried LOW task at the head, a fresh URGENT task
enqueued afterwards. -/
theorem add_task_resorts_over_retry_front_witness :
    exTaskUrgent ∈ addTask [exTaskLow] exTaskUrgent
    ∧ exTaskLow ∈ addTask [exTaskLow] exTaskUrgent
    ∧ (addTask [exTaskLow] exTaskUrgent).indexOf exTaskUrgent <
        (addTask [exTaskLow] exTaskUrgent).indexOf exTaskLow
    ∧ (addTask [exTaskLow] exTaskUrgent).filter
            (fun x => decide (x.priority.value = exTaskLow.priority.value)) =
        exTaskLow :: List.filter
            (fun x => decide (x.priority.value = exTaskLow.priority.value))
            [] :=
  add_task_resorts_over_retry_front exTaskLow exTaskUrgent [] (by decide)

/-! ## Task processing and retries
(utils/queue_manager.py, `_start_task_processing` lines 205-218 and
`_process_task` lines 220-258) -/

/-- `_start_task_processing`: mark the task PROCESSING and stamp
`started_at` before submitting it to the thread pool. -/
def startTaskProcessing (task : QueueTask) (now : ℚ) : QueueTask :=
  { task with status := .processing, started_at := some now }

/-- `_process_task`.  `outcome = none` models a processor run that
returns normally, `outcome = some e` one that raises an exception with
message `e`.  On success the task is marked COMPLETED with
`completed_at` stamped; on exception it is marked FAILED with the
message and `completed_at` stamped, and then, if
`retry_count < max_retries`, the retry path increments `retry_count`,
resets the status to PENDING, clears both timestamps and reinserts the
task id at index 0 of the pending queue of ids. -/
def processTask (task : QueueTask) (outcome : Option String) (now : ℚ)
    (pending : List String) : QueueTask × List String :=
  match outcome with
  | none =>
      ({ task with status := .completed, completed_at := some now }, pending)
  | some e =>
      let failed := { task with status := .failed,
                                error_message := some e,
                                completed_at := some now }
      if failed.retry_count < failed.max_retries then
        ({ failed with retry_count := failed.retry_count + 1,
                       status := .pending,
                       started_at := none,
                       completed_at := none },
         task.id :: pending)
      else
        (failed, pending)

/-- Drive one task through the worker loop with nothing else queued:
each round the worker pops the task, marks it PROCESSING and runs
`_process_task`; the execution of a task that has been retried `k`
times so far gets outcome `outcomes k`.  Returns the final task record
and the number of executions performed.  `fuel` bounds the rounds —
`max_retries + 1` is always enough, since the queue is re-entered only
while `retry_count < max_retries` and each retry increments
`retry_count`. -/
def runTask : ℕ → (ℕ → Option String) → ℚ → QueueTask → QueueTask × ℕ
  | 0, _, _, task => (task, 0)
  | fuel + 1, outcomes, now, task =>
      let step := processTask (startTaskProcessing task now)
        (outcomes task.retry_count) now []
      if step.2 = [] then
        (step.1, 1)
      else
        let rest := runTask fuel outcomes now step.1
        (rest.1, rest.2 + 1)

/-- Run one task to its final state with sufficient fuel. -/
def executeTask (outcomes : ℕ → Option String) (now : ℚ)
    (task : QueueTask) : QueueTask × ℕ :=
  runTask (task.max_retries + 1) outcomes now task

/-- **C2**: a task with `max_retries = 3` whose every execution raises
is executed exactly 4 times (1 original + 3 retries) and ends FAILED
with `retry_count = 3`; a task whose first execution raises and whose
second succeeds is executed twice and ends COMPLETED with
`retry_count = 1`; and every non-final failure increments
`retry_count`, resets the status to PENDING, clears the started/completed
timestamps (keeping the recorded error message) and reinserts the task
id at index 0 of the pending queue. -/
theorem process_task_retry_behavior :
    (∀ (errs : ℕ → String) (now : ℚ) (task : QueueTask),
        task.retry_count = 0 → task.max_retries = 3 →
        (executeTask (fun k => some (errs k)) now task).2 = 4
        ∧ (executeTask (fun k => some (errs k)) now task).1.status = .failed
        ∧ (executeTask (fun k => some (errs k)) now task).1.retry_count = 3)
    ∧ (∀ (e : String) (now : ℚ) (task : QueueTask),
        task.retry_count = 0 → task.max_retries = 3 →
        (executeTask (fun k => if k = 0 then some e else none) now task).2 = 2
        ∧ (executeTask (fun k => if k = 0 then some e else none)
            now task).1.status = .completed
        ∧ (executeTask (fun k => if k = 0 then some e else none)
            now task).1.retry_count = 1)
    ∧ (∀ (task : QueueTask) (e : String) (now : ℚ) (pending : List String),
        task.retry_count < task.max_retries →
        processTask (startTaskProcessing task now) (some e) now pending =
          ({ task with status := .pending,
                       retry_count := task.retry_count + 1,
                       started_at := none,
                       completed_at := none,
                       error_message := some e },
           task.id :: pending)) := by
  refine ⟨?_, ?_, ?_⟩
  · intro errs now task h0 h3
    obtain ⟨tid, tprio, tst, tsa, tca, tem, trc, tmr⟩ := task
    simp only at h0 h3
    subst h0 h3
    exact ⟨rfl, rfl, rfl⟩
  · intro e now task h0 h3
    obtain ⟨tid, tprio, tst, tsa, tca, tem, trc, tmr⟩ := task
    simp only at h0 h3
    subst h0 h3
    exact ⟨rfl, rfl, rfl⟩
  · intro task e now pending hlt
    obtain ⟨tid, tprio, tst, tsa, tca, tem, trc, tmr⟩ := task
    simp only at hlt
    simp [processTask, startTaskProcessing, hlt]

/-- Witness for C2 on the NORMAL-priority example task
(`retry_count = 0`, `max_retries = 3`). -/
theorem process_task_retry_behavior_witness :
    ((executeTask (fun k => some ((fun _ => "boom") k)) 0 exTaskNormal).2 = 4
      ∧ (executeTask (fun k => some ((fun _ => "boom") k))
          0 exTaskNormal).1.status = .failed
      ∧ (executeTask (fun k => some ((fun _ => "boom") k))
          0 exTaskNormal).1.retry_count = 3)
    ∧ ((executeTask (fun k => if k = 0 then some "boom" else none)
          0 exTaskNormal).2 = 2
      ∧ (executeTask (fun k => if k = 0 then some "boom" else none)
          0 exTaskNormal).1.status = .completed
      ∧ (executeTask (fun k => if k = 0 then some "boom" else none)
          0 exTaskNormal).1.retry_count = 1)
    ∧ processTask (startTaskProcessing exTaskNormal 0) (some "boom") 0 [] =
        ({ exTaskNormal with
              status := .pending,
              retry_count := exTaskNormal.retry_count + 1,
              started_at := none,
              completed_at := none,
              error_message := some "boom" },
         exTaskNormal.id :: []) :=
  ⟨process_task_retry_behavior.1 (fun _ => "boom") 0 exTaskNormal rfl rfl,
   process_task_retry_behavior.2.1 "boom" 0 exTaskNormal rfl rfl,
   process_task_retry_behavior.2.2 exTaskNormal "boom" 0 [] (by decide)⟩

/-! ## TTS providers and the factory
(utils/tts/base_provider.py and utils/tts/tts_factory.py)

A registered provider is modelled by its registry name, the result of
the `isinstance(provider, ElevenLabsProvider)` test, and its
per-character rate; both concrete providers implement
`get_cost_estimate(character_count)` as
`character_count * self.cost_per_character`.  `self._providers` is an
insertion-ordered dict, modelled as the list of providers in
registration order.  Provider-level behaviour
(`provider.text_to_speech(text, voice_config, output_path)`) is network
I/O; it enters the model as an arbitrary function
`attempt : Provider → Option TTSResult`, where `none` models a raised
exception and `some r` a returned `TTSResult` — the factory code under
verification treats it as exactly such a black box.  Python floats here
only ever feed comparisons and `*`, and are modelled as rationals. -/

/-- `TTSResult` (base_provider.py); the fields no claim touches
(`cost_estimate`, `duration_seconds`) are omitted. -/
structure TTSResult where
  success : Bool
  audio_path : Option String
  error_message : Option String
  character_count : Nat
deriving DecidableEq, Repr

structure Provider where
  name : String
  isElevenLabs : Bool
  cost_per_character : ℚ
deriving DecidableEq, Repr

/-- `get_cost_estimate` of both providers:
`character_count * self.cost_per_character`. -/
def Provider.get_cost_estimate (p : Provider) (character_count : Nat) : ℚ :=
  character_count * p.cost_per_character

/-- The configuration fields of `TTSFactory` that the selection and
fallback logic reads, plus `self._providers`. -/
structure TTSFactory where
  providers : List Provider
  quality_preference : String
  cost_threshold : ℚ
  auto_fallback : Bool

/-- `TTSFactory.get_provider` with an explicit provider name: either the
registered provider or the `ValueError` (modelled as `.error`). -/
def getProvider (f : TTSFactory) (provider_name : String) :
    Except String Provider :=
  match f.providers.find? (fun p => p.name = provider_name) with
  | some p => .ok p
  | none => .error ("Provider " ++ provider_name ++ " not available")

/-- Sorting relation for `provider_costs.sort(key=lambda x: x[1])`:
stable ascending by estimated cost. -/
def costLE (x y : Provider × ℚ) : Prop := x.2 ≤ y.2

instance : DecidableRel costLE := fun _ _ => Rat.instDecidableLe _ _

/-- `TTSFactory.get_optimal_provider_for_text`.  `.error` models the
`RuntimeError` raised when no provider is available (the sorted cost
list is empty exactly when `self._providers` is).  The `high` branch
scans the cost-sorted list for an `ElevenLabsProvider` whose cost is
within the threshold (or which is the only provider), else falls back
to the cheapest; `cost_effective` always takes the cheapest;
`standard` takes the cheapest under the threshold, else the first
within twice the threshold, else the cheapest. -/
def getOptimalProviderForText (f : TTSFactory) (character_count : Nat)
    (quality_preference : Option String) : Except String Provider :=
  let quality_pref := quality_preference.getD f.quality_preference
  let cost_threshold := f.cost_threshold
  match List.insertionSort costLE
      (f.providers.map (fun p => (p, p.get_cost_estimate character_count))) with
  | [] => .error "No TTS providers available"
  | c :: cs =>
      let provider_costs := c :: cs
      if quality_pref = "cost_effective" then
        .ok c.1
      else if quality_pref = "high" then
        match provider_costs.find? (fun pc => pc.1.isElevenLabs &&
            (decide (pc.2 ≤ cost_threshold) ||
              provider_costs.length == 1)) with
        | some pc => .ok pc.1
        | none => .ok c.1
      else
        if c.2 ≤ cost_threshold then
          .ok c.1
        else
          match provider_costs.find?
              (fun pc => decide (pc.2 ≤ cost_threshold * 2)) with
          | some pc => .ok pc.1
          | none => .ok c.1

/-- One guarded attempt inside `text_to_speech_with_fallback`: run the
provider, swallow any exception (`none`), and keep the result only when
`result.success` — every non-success falls through to the next stage. -/
def tryProvider (attempt : Provider → Option TTSResult) (p : Provider) :
    Option TTSResult :=
  match attempt p with
  | none => none
  | some result => if result.success then some result else none

/-- The preferred-provider stage of `text_to_speech_with_fallback`:
look the name up (a `ValueError` is caught) and attempt it. -/
def tryPreferred (f : TTSFactory) (attempt : Provider → Option TTSResult)
    (preferred_provider : Option String) : Option TTSResult :=
  match preferred_provider with
  | none => none
  | some name =>
      match getProvider f name with
      | .error _ => none
      | .ok provider => tryProvider attempt provider

/-- The failure value built after all providers failed. -/
def allFailedResult (character_count : Nat) : TTSResult :=
  ⟨false, none, some "All TTS providers failed", character_count⟩

/-- The optimal-provider stage of `text_to_speech_with_fallback`:
`get_optimal_provider_for_text` (its `RuntimeError` is caught) followed
by a guarded attempt of the selected provider. -/
def tryOptimal (f : TTSFactory) (attempt : Provider → Option TTSResult)
    (character_count : Nat) : Option TTSResult :=
  match getOptimalProviderForText f character_count none with
  | .error _ => none
  | .ok provider => tryProvider attempt provider

/-- `TTSFactory.text_to_speech_with_fallback`: preferred provider first
(when given), then the policy-selected optimal provider, then — when
`auto_fallback` is on — every registered provider in registration
order; the first successful result is returned, and if everything fails
a failure `TTSResult` is built.  Every provider exception is caught, so
the function is total. -/
def textToSpeechWithFallback (f : TTSFactory)
    (attempt : Provider → Option TTSResult) (character_count : Nat)
    (preferred_provider : Option String) : TTSResult :=
  match tryPreferred f attempt preferred_provider with
  | some result => result
  | none =>
      match tryOptimal f attempt character_count with
      | some result => result
      | none =>
          match
            (if f.auto_fallback then
              f.providers.findSome? (tryProvider attempt)
            else none) with
          | some result => result
          | none => allFailedResult character_count

lemma tryProvider_eq_some {attempt : Provider → Option TTSResult}
    {p : Provider} {res : TTSResult} :
    tryProvider attempt p = some res ↔
      attempt p = some res ∧ res.success = true := by
  unfold tryProvider
  cases h : attempt p with
  | none => simp
  | some r =>
      by_cases hs : r.success = true
      · simp only [hs, if_true]
        constructor
        · rintro h'
          cases h'
          exact ⟨rfl, hs⟩
        · rintro ⟨h', -⟩
          cases h'
          rfl
      · simp only [hs, if_false, Bool.false_eq_true]
        constructor
        · rintro ⟨⟩
        · rintro ⟨h', hsucc⟩
          cases h'
          exact absurd hsucc hs

lemma sorted_costSort (l : List (Provider × ℚ)) :
    (List.insertionSort costLE l).Sorted costLE := by
  haveI : IsTotal (Provider × ℚ) costLE := ⟨fun a b => le_total a.2 b.2⟩
  haveI : IsTrans (Provider × ℚ) costLE := ⟨fun a b c => le_trans⟩
  exact List.sorted_insertionSort costLE l

lemma mem_providers_of_mem_costSort {f : TTSFactory} {n : Nat}
    {pc : Provider × ℚ} {l : List (Provider × ℚ)}
    (hs : List.insertionSort costLE
      (f.providers.map (fun q => (q, q.get_cost_estimate n))) = l)
    (hpc : pc ∈ l) : pc.1 ∈ f.providers ∧ pc.2 = pc.1.get_cost_estimate n := by
  rw [← hs] at hpc
  have h2 : pc ∈ f.providers.map (fun q => (q, q.get_cost_estimate n)) :=
    (List.perm_insertionSort costLE _).mem_iff.mp hpc
  obtain ⟨q, hq, hqe⟩ := List.mem_map.mp h2
  cases hqe
  exact ⟨hq, rfl⟩

lemma mem_costSort_of_mem_providers {f : TTSFactory} {n : Nat}
    {q : Provider} {l : List (Provider × ℚ)}
    (hs : List.insertionSort costLE
      (f.providers.map (fun q => (q, q.get_cost_estimate n))) = l)
    (hq : q ∈ f.providers) : (q, q.get_cost_estimate n) ∈ l := by
  rw [← hs]
  exact (List.perm_insertionSort costLE _).mem_iff.mpr
    (List.mem_map.mpr ⟨q, hq, rfl⟩)

lemma mem_of_getOptimal {f : TTSFactory} {n : Nat} {qp : Option String}
    {p : Provider} :
    getOptimalProviderForText f n qp = .ok p → p ∈ f.providers := by
  unfold getOptimalProviderForText
  cases hs : List.insertionSort costLE
      (f.providers.map (fun q => (q, q.get_cost_estimate n))) with
  | nil => intro h; cases h
  | cons c cs =>
      intro h
      simp only at h
      have hc : c.1 ∈ f.providers :=
        (mem_providers_of_mem_costSort hs (List.mem_cons_self c cs)).1
      split at h
      · cases h; exact hc
      · split at h
        · split at h
          · rename_i pc hfind
            cases h
            exact (mem_providers_of_mem_costSort hs
              (List.mem_of_find?_eq_some hfind)).1
          · cases h; exact hc
        · split at h
          · cases h; exact hc
          · split at h
            · rename_i pc hfind
              cases h
              exact (mem_providers_of_mem_costSort hs
                (List.mem_of_find?_eq_some hfind)).1
            · cases h; exact hc

/-- An ElevenLabs provider whose estimate for an 800-character text is
`800/10000 = 0.08`. -/
def elevenCheap : Provider := ⟨"elevenlabs", true, 1/10000⟩

/-- An ElevenLabs provider whose estimate for an 800-character text is
`800/1600 = 0.50`. -/
def elevenCostly : Provider := ⟨"elevenlabs", true, 1/1600⟩

/-- A Gemini provider whose estimate for an 800-character text is
`800/40000 = 0.02`. -/
def geminiCheap : Provider := ⟨"gemini", false, 1/40000⟩

/-- **C4**: with `quality_preference = 'high'` and threshold `T`, a
premium (ElevenLabs) provider whose estimate is within `T` is selected;
a pool consisting of a single provider yields that provider (in
particular a lone premium one, whatever its cost); otherwise the
cheapest provider is selected.  Concretely, with `T = 0.10` and an
800-character text, premium cost `0.08` selects ElevenLabs and premium
cost `0.50` selects the cheaper Gemini. -/
theorem get_optimal_provider_high_quality (f : TTSFactory) (n : Nat)
    (hq : f.quality_preference = "high") :
    ((∃ p ∈ f.providers, p.isElevenLabs = true ∧
        p.get_cost_estimate n ≤ f.cost_threshold) →
      ∃ p, getOptimalProviderForText f n none = .ok p ∧
        p.isElevenLabs = true)
    ∧ (∀ p, f.providers = [p] →
        getOptimalProviderForText f n none = .ok p)
    ∧ ((∀ p ∈ f.providers, p.isElevenLabs = true →
          ¬ p.get_cost_estimate n ≤ f.cost_threshold) →
        1 < f.providers.length →
        ∃ p, getOptimalProviderForText f n none = .ok p ∧
          p ∈ f.providers ∧
          ∀ q ∈ f.providers,
            p.get_cost_estimate n ≤ q.get_cost_estimate n)
    ∧ getOptimalProviderForText
        ⟨[elevenCheap, geminiCheap], "high", 1/10, true⟩ 800 none =
        .ok elevenCheap
    ∧ getOptimalProviderForText
        ⟨[elevenCostly, geminiCheap], "high", 1/10, true⟩ 800 none =
        .ok geminiCheap := by
  have hlen_eq : ∀ l, List.insertionSort costLE
      (f.providers.map (fun q => (q, q.get_cost_estimate n))) = l →
      l.length = f.providers.length := by
    intro l hs
    rw [← hs, (List.perm_insertionSort costLE _).length_eq,
      List.length_map]
  refine ⟨?_, ?_, ?_, ?_, ?_⟩
  · rintro ⟨p, hp, hE, hcost⟩
    cases hs : List.insertionSort costLE
        (f.providers.map (fun q => (q, q.get_cost_estimate n))) with
    | nil =>
        have h0 := hlen_eq _ hs
        simp at h0
        exact absurd hp (by rw [List.length_eq_zero.mp h0.symm]; simp)
    | cons c cs =>
        have hpin : (p, p.get_cost_estimate n) ∈ c :: cs :=
          mem_costSort_of_mem_providers hs hp
        have hex : ∃ pc ∈ c :: cs, (pc.1.isElevenLabs &&
            (decide (pc.2 ≤ f.cost_threshold) ||
              (c :: cs).length == 1)) = true := by
          refine ⟨(p, p.get_cost_estimate n), hpin, ?_⟩
          simp [hE, hcost]
        cases hfind : (c :: cs).find? (fun pc => pc.1.isElevenLabs &&
            (decide (pc.2 ≤ f.cost_threshold) ||
              (c :: cs).length == 1)) with
        | none =>
            rw [List.find?_eq_none] at hfind
            obtain ⟨pc, hpc, hpred⟩ := hex
            exact absurd hpred (by simpa using hfind pc hpc)
        | some pc =>
            refine ⟨pc.1, ?_, ?_⟩
            · simp only [getOptimalProviderForText, hs, hq, Option.getD]
              rw [if_pos trivial, hfind, if_neg (by decide)]
            · have h' := List.find?_some hfind
              rw [Bool.and_eq_true] at h'
              exact h'.1
  · intro p hsing
    have hmap : f.providers.map (fun q => (q, q.get_cost_estimate n)) =
        [(p, p.get_cost_estimate n)] := by rw [hsing]; rfl
    have hs : List.insertionSort costLE
        (f.providers.map (fun q => (q, q.get_cost_estimate n))) =
        [(p, p.get_cost_estimate n)] := by rw [hmap]; rfl
    simp only [getOptimalProviderForText, hs, hq, Option.getD]
    rw [if_pos trivial, if_neg (by decide)]
    cases hE : p.isElevenLabs with
    | true => simp [List.find?, hE]
    | false => simp [List.find?, hE]
  · intro hno hlen
    cases hs : List.insertionSort costLE
        (f.providers.map (fun q => (q, q.get_cost_estimate n))) with
    | nil =>
        have := hlen_eq _ hs
        simp at this
        omega
    | cons c cs =>
        have hlength : (c :: cs).length = f.providers.length :=
          hlen_eq _ hs
        have hfind : (c :: cs).find? (fun pc => pc.1.isElevenLabs &&
            (decide (pc.2 ≤ f.cost_threshold) ||
              (c :: cs).length == 1)) = none := by
          rw [List.find?_eq_none]
          intro pc hpc
          obtain ⟨hmem, hcost⟩ := mem_providers_of_mem_costSort hs hpc
          intro hpred
          rw [Bool.and_eq_true] at hpred
          have hE := hpred.1
          have hor := hpred.2
          rw [Bool.or_eq_true] at hor
          rcases hor with h1 | h1
          · exact hno pc.1 hmem hE (by rw [← hcost]; simpa using h1)
          · have : (c :: cs).length = 1 := by simpa using h1
            omega
        have hsorted : (c :: cs).Sorted costLE := by
          rw [← hs]; exact sorted_costSort _
        obtain ⟨hcmem, hccost⟩ :=
          mem_providers_of_mem_costSort hs (List.mem_cons_self c cs)
        refine ⟨c.1, ?_, hcmem, ?_⟩
        · simp only [getOptimalProviderForText, hs, hq, Option.getD]
          rw [if_pos trivial, hfind, if_neg (by decide)]
        · intro q hqmem
          have hqin : (q, q.get_cost_estimate n) ∈ c :: cs :=
            mem_costSort_of_mem_providers hs hqmem
          rcases List.mem_cons.mp hqin with h1 | h1
          · rw [← hccost, ← h1]
          · have := (List.sorted_cons.mp hsorted).1 _ h1
            rw [← hccost]
            exact this
  · norm_num [getOptimalProviderForText, List.insertionSort,
      List.orderedInsert, costLE, Provider.get_cost_estimate, elevenCheap,
      geminiCheap, List.find?]
    decide
  · norm_num [getOptimalProviderForText, List.insertionSort,
      List.orderedInsert, costLE, Provider.get_cost_estimate, elevenCostly,
      geminiCheap, List.find?]
    intro _
    simp

/-- Witness for C4: the 0.08-premium / 0.02-gemini pool under
threshold 0.10 selects the premium provider. -/
theorem get_optimal_provider_high_quality_witness :
    getOptimalProviderForText
      ⟨[elevenCheap, geminiCheap], "high", 1/10, true⟩ 800 none =
      .ok elevenCheap :=
  (get_optimal_provider_high_quality
    ⟨[elevenCheap, geminiCheap], "high", 1/10, true⟩ 800 rfl).2.2.2.1

lemma mem_of_getProvider {f : TTSFactory} {name : String} {p : Provider}
    (h : getProvider f name = .ok p) : p ∈ f.providers := by
  unfold getProvider at h
  split at h
  · rename_i q hf
    cases h
    exact List.mem_of_find?_eq_some hf
  · cases h

lemma tryPreferred_success {f : TTSFactory}
    {attempt : Provider → Option TTSResult} {preferred : Option String}
    {res : TTSResult} (h : tryPreferred f attempt preferred = some res) :
    ∃ p ∈ f.providers, attempt p = some res ∧ res.success = true := by
  unfold tryPreferred at h
  split at h
  · cases h
  · rename_i name
    split at h
    · cases h
    · rename_i provider hg
      obtain ⟨h1, h2⟩ := tryProvider_eq_some.mp h
      exact ⟨provider, mem_of_getProvider hg, h1, h2⟩

/-- **C3** (with `auto_fallback` on, its default): the fallback wrapper
always returns a `TTSResult` — every provider exception is modelled and
caught, never re-raised — and: it returns the failure record exactly
when no registered provider succeeds; a successful preferred attempt is
returned as-is; when the preferred stage fails, a successful attempt of
the policy-selected optimal provider is returned; and when that also
fails, the first success among the registered providers in registration
order is returned.  In particular the result is a failure only if every
provider's attempt fails. -/
theorem tts_fallback_first_success (f : TTSFactory)
    (attempt : Provider → Option TTSResult) (n : Nat)
    (preferred : Option String) (hfb : f.auto_fallback = true) :
    ((textToSpeechWithFallback f attempt n preferred).success = false →
      textToSpeechWithFallback f attempt n preferred = allFailedResult n)
    ∧ ((textToSpeechWithFallback f attempt n preferred).success = true ↔
        ∃ p ∈ f.providers, ∃ res, attempt p = some res ∧
          res.success = true)
    ∧ (∀ res, tryPreferred f attempt preferred = some res →
        textToSpeechWithFallback f attempt n preferred = res)
    ∧ (∀ popt res, tryPreferred f attempt preferred = none →
        getOptimalProviderForText f n none = .ok popt →
        tryProvider attempt popt = some res →
        textToSpeechWithFallback f attempt n preferred = res)
    ∧ (∀ res, tryPreferred f attempt preferred = none →
        (∀ popt, getOptimalProviderForText f n none = .ok popt →
          tryProvider attempt popt = none) →
        f.providers.findSome? (tryProvider attempt) = some res →
        textToSpeechWithFallback f attempt n preferred = res) := by
  have hopt_succ : ∀ {res : TTSResult}, tryOptimal f attempt n = some res →
      ∃ p ∈ f.providers, attempt p = some res ∧ res.success = true := by
    intro res h
    unfold tryOptimal at h
    revert h
    cases hg : getOptimalProviderForText f n none with
    | error e => intro h; cases h
    | ok popt =>
        intro h
        obtain ⟨ha, hs⟩ := tryProvider_eq_some.mp h
        exact ⟨popt, mem_of_getOptimal hg, ha, hs⟩
  have hopt_of : ∀ {popt : Provider} {res : TTSResult},
      getOptimalProviderForText f n none = .ok popt →
      tryProvider attempt popt = some res →
      tryOptimal f attempt n = some res := by
    intro popt res hopt htry
    unfold tryOptimal
    rw [hopt]
    exact htry
  have hopt_none : (∀ popt, getOptimalProviderForText f n none = .ok popt →
      tryProvider attempt popt = none) → tryOptimal f attempt n = none := by
    intro hall
    unfold tryOptimal
    cases hg : getOptimalProviderForText f n none with
    | error e => rfl
    | ok popt => exact hall popt hg
  cases h1 : tryPreferred f attempt preferred with
  | some res1 =>
      have hr : textToSpeechWithFallback f attempt n preferred = res1 := by
        unfold textToSpeechWithFallback
        rw [h1]
      obtain ⟨p, hp, hap, hsucc⟩ := tryPreferred_success h1
      refine ⟨?_, ?_, ?_, ?_, ?_⟩
      · intro hfail
        rw [hr] at hfail
        rw [hfail] at hsucc
        cases hsucc
      · rw [hr]
        exact ⟨fun _ => ⟨p, hp, res1, hap, hsucc⟩, fun _ => hsucc⟩
      · intro res h
        cases h
        exact hr
      · intro popt res h
        cases h
      · intro res h
        cases h
  | none =>
      cases h2 : tryOptimal f attempt n with
      | some res2 =>
          have hr : textToSpeechWithFallback f attempt n preferred = res2 := by
            unfold textToSpeechWithFallback
            rw [h1, h2]
          obtain ⟨p, hp, hap, hsucc⟩ := hopt_succ h2
          refine ⟨?_, ?_, ?_, ?_, ?_⟩
          · intro hfail
            rw [hr] at hfail
            rw [hfail] at hsucc
            cases hsucc
          · rw [hr]
            exact ⟨fun _ => ⟨p, hp, res2, hap, hsucc⟩, fun _ => hsucc⟩
          · intro res h
            cases h
          · intro popt res hpref hopt htry
            have h2' := hopt_of hopt htry
            rw [h2] at h2'
            cases h2'
            exact hr
          · intro res hpref hall hfind
            rw [hopt_none hall] at h2
            cases h2
      | none =>
          cases h3 : f.providers.findSome? (tryProvider attempt) with
          | some res3 =>
              have hr : textToSpeechWithFallback f attempt n preferred =
                  res3 := by
                unfold textToSpeechWithFallback
                rw [h1, h2, if_pos hfb, h3]
              obtain ⟨p, hp, htry⟩ := List.exists_of_findSome?_eq_some h3
              obtain ⟨hap, hsucc⟩ := tryProvider_eq_some.mp htry
              refine ⟨?_, ?_, ?_, ?_, ?_⟩
              · intro hfail
                rw [hr] at hfail
                rw [hfail] at hsucc
                cases hsucc
              · rw [hr]
                exact ⟨fun _ => ⟨p, hp, res3, hap, hsucc⟩, fun _ => hsucc⟩
              · intro res h
                cases h
              · intro popt res hpref hopt htry'
                have h2' := hopt_of hopt htry'
                rw [h2] at h2'
                cases h2'
              · intro res hpref hall hfind
                cases hfind
                exact hr
          | none =>
              have hr : textToSpeechWithFallback f attempt n preferred =
                  allFailedResult n := by
                unfold textToSpeechWithFallback
                rw [h1, h2, if_pos hfb, h3]
              have hnone : ∀ p ∈ f.providers,
                  tryProvider attempt p = none :=
                List.findSome?_eq_none_iff.mp h3
              refine ⟨fun _ => hr, ?_, ?_, ?_, ?_⟩
              · rw [hr]
                constructor
                · intro hfalse
                  simp [allFailedResult] at hfalse
                · rintro ⟨p, hp, res, hap, hsucc⟩
                  have h' : tryProvider attempt p = some res :=
                    tryProvider_eq_some.mpr ⟨hap, hsucc⟩
                  rw [hnone p hp] at h'
                  cases h'
              · intro res h
                cases h
              · intro popt res hpref hopt htry'
                have h2' := hopt_of hopt htry'
                rw [h2] at h2'
                cases h2'
              · intro res hpref hall hfind
                cases hfind

/-- Witness for C3: a factory whose single provider's attempt always
raises; the fallback result is a failure exactly because no provider
succeeds. -/
theorem tts_fallback_first_success_witness :
    ((textToSpeechWithFallback ⟨[geminiCheap], "high", 1/10, true⟩
        (fun _ => none) 5 none).success = true ↔
      ∃ p ∈ (⟨[geminiCheap], "high", 1/10, true⟩ : TTSFactory).providers,
        ∃ res, (fun _ => (none : Option TTSResult)) p = some res ∧
          res.success = true) :=
  (tts_fallback_first_success ⟨[geminiCheap], "high", 1/10, true⟩
    (fun _ => none) 5 none rfl).2.1

/-! ## Scheduler (scheduler.py, `schedule_video` lines 104-135,
`_generate_video` lines 168-210,
`_update_scheduled_video_execution` lines 212-236) -/

/-- A `scheduled_videos` row, restricted to the fields the execution
update touches. -/
structure ScheduledVideo where
  execution_count : Nat
  max_executions : Option Nat
  is_active : Bool
  last_execution : Option ℚ
deriving DecidableEq, Repr

/-- `_update_scheduled_video_execution`: increment `execution_count`,
stamp `last_execution`, and — when `max_executions` is set and truthy
(Python: `if max_executions and new_count >= max_executions`) and the
new count has reached it — set `is_active` to `False`.  Nothing else
changes; in particular no scheduler job is removed. -/
def updateScheduledVideoExecution (sv : ScheduledVideo) (now : ℚ) :
    ScheduledVideo :=
  let new_count := sv.execution_count + 1
  let reached : Bool :=
    match sv.max_executions with
    | some m => decide (m ≠ 0) && decide (m ≤ new_count)
    | none => false
  { sv with execution_count := new_count,
            last_execution := some now,
            is_active := if reached then false else sv.is_active }

/-- The in-process scheduler state for one definition: the database row
together with whether the APScheduler cron job added by
`schedule_video` is still registered. -/
structure SchedulerJobState where
  video : ScheduledVideo
  job_registered : Bool
deriving DecidableEq, Repr

/-- One trigger firing: APScheduler runs `_generate_video` whenever the
job is registered.  `_generate_video` inserts a queue item and calls
`_update_scheduled_video_execution`; it neither consults `is_active`
nor removes the job — only `remove_scheduled_video` /
`update_scheduled_video` (external calls) or a restart do. -/
def fireScheduledVideo (s : SchedulerJobState) (now : ℚ) :
    SchedulerJobState :=
  if s.job_registered then
    { s with video := updateScheduledVideoExecution s.video now }
  else s

/-- **C6** (code-bug evidence): a daily definition with
`max_executions = 1`.  The first firing sets `execution_count = 1` and
`is_active = False` in the database — but the cron job stays registered
in the running scheduler, so the next daily trigger runs
`_generate_video` again and `execution_count` reaches 2, contradicting
"the definition never fires again". -/
theorem scheduled_video_fires_after_deactivation :
    (fireScheduledVideo ⟨⟨0, some 1, true, none⟩, true⟩ 0).video.is_active
        = false
    ∧ (fireScheduledVideo ⟨⟨0, some 1, true, none⟩, true⟩
        0).video.execution_count = 1
    ∧ (fireScheduledVideo ⟨⟨0, some 1, true, none⟩, true⟩
        0).job_registered = true
    ∧ (fireScheduledVideo
        (fireScheduledVideo ⟨⟨0, some 1, true, none⟩, true⟩ 0)
        86400).video.execution_count = 2 :=
  ⟨rfl, rfl, rfl, rfl⟩

/-! ## Script line splitting
(utils/write_script.py `split_text_to_lines` lines 49-58, and
utils/voice_gen.py `voice_main` lines 219-235)

Python strings are modelled as `List Char`; `str.strip()` as removal of
leading and trailing whitespace, `str.split(sep)` as splitting at every
separator occurrence keeping empty fragments (`"".split('.') == ['']`),
and each `str.replace(a, b)` as the corresponding character map
(deletion for `replace('*', '')`). -/

/-- The characters `str.strip()` removes. -/
def pyIsSpace (c : Char) : Bool :=
  c == ' ' || c == '\t' || c == '\n' || c == '\r' ||
    c == '\x0b' || c == '\x0c'

/-- Remove the longest suffix of characters satisfying `p`. -/
def dropLastWhile (p : Char → Bool) : List Char → List Char
  | [] => []
  | c :: cs =>
      if (dropLastWhile p cs).isEmpty && p c then []
      else c :: dropLastWhile p cs

/-- `str.strip()`: drop leading then trailing whitespace. -/
def pyStrip (s : List Char) : List Char :=
  dropLastWhile pyIsSpace (s.dropWhile pyIsSpace)

/-- `str.split(sep)` for a one-character separator: every occurrence
splits, empty fragments kept, and the empty string yields `[""]`. -/
def splitOnChar (sep : Char) : List Char → List (List Char)
  | [] => [[]]
  | c :: cs =>
      if c == sep then [] :: splitOnChar sep cs
      else
        match splitOnChar sep cs with
        | [] => [[c]]
        | h :: t => (c :: h) :: t

/-- `str.replace(a, b)` for one-character `a`, `b`. -/
def pyReplaceChar (a b : Char) (s : List Char) : List Char :=
  s.map (fun c => if c == a then b else c)

/-- `str.replace(a, '')` for a one-character `a`. -/
def pyRemoveChar (a : Char) (s : List Char) : List Char :=
  s.filter (fun c => !(c == a))

/-- The replacement chain shared verbatim by `split_text_to_lines` and
`voice_main`:
`.replace(':',' ').replace('-',' ').replace('_',' ').replace('!','.')`
`.replace('*','').replace(',','.')`. -/
def cleanScriptText (s : List Char) : List Char :=
  pyReplaceChar ',' '.'
    (pyRemoveChar '*'
      (pyReplaceChar '!' '.'
        (pyReplaceChar '_' ' '
          (pyReplaceChar '-' ' '
            (pyReplaceChar ':' ' ' s)))))

/-- Split one line at `'.'`, trim each fragment, discard the empty
ones — the inner loop of `split_text_to_lines` and, applied to the
whole text, the list comprehension
`[s.strip() for s in text_clean.split('.') if s.strip()]`
of `voice_main`. -/
def scriptFragments (line : List Char) : List (List Char) :=
  ((splitOnChar '.' line).map pyStrip).filter (fun s => !s.isEmpty)

/-- `split_text_to_lines`: clean, then
`for line in text_input.strip().split("\n")`, then per line split at
`'.'`, strip, and keep the non-empty fragments, in order. -/
def splitTextToLines (text_input : List Char) : List (List Char) :=
  (splitOnChar '\n' (pyStrip (cleanScriptText text_input))).flatMap
    scriptFragments

/-- The sentence list `voice_main` builds from `outputs/text.txt`:
clean, split at `'.'`, strip, keep non-empty. -/
def voiceSentences (full_text : List Char) : List (List Char) :=
  scriptFragments (cleanScriptText full_text)

lemma mem_pyReplaceChar {a b x : Char} {s : List Char}
    (hx : x ∈ pyReplaceChar a b s) : x = b ∨ x ∈ s := by
  unfold pyReplaceChar at hx
  obtain ⟨c, hc, hcx⟩ := List.mem_map.mp hx
  by_cases h : (c == a) = true
  · rw [if_pos h] at hcx
    exact Or.inl hcx.symm
  · rw [if_neg h] at hcx
    cases hcx
    exact Or.inr hc

lemma mem_pyRemoveChar {a x : Char} {s : List Char}
    (hx : x ∈ pyRemoveChar a s) : x ∈ s :=
  List.mem_of_mem_filter hx

lemma cleanScriptText_no_newline {s : List Char} (h : '\n' ∉ s) :
    '\n' ∉ cleanScriptText s := by
  intro hmem
  unfold cleanScriptText at hmem
  rcases mem_pyReplaceChar hmem with h1 | h1
  · exact absurd h1 (by decide)
  have h2 := mem_pyRemoveChar h1
  rcases mem_pyReplaceChar h2 with h3 | h3
  · exact absurd h3 (by decide)
  rcases mem_pyReplaceChar h3 with h4 | h4
  · exact absurd h4 (by decide)
  rcases mem_pyReplaceChar h4 with h5 | h5
  · exact absurd h5 (by decide)
  rcases mem_pyReplaceChar h5 with h6 | h6
  · exact absurd h6 (by decide)
  exact h h6

lemma mem_dropLastWhile {p : Char → Bool} {x : Char} :
    ∀ {s : List Char}, x ∈ dropLastWhile p s → x ∈ s := by
  intro s
  induction s with
  | nil => intro hx; exact absurd hx (by simp [dropLastWhile])
  | cons c cs ih =>
      intro hx
      unfold dropLastWhile at hx
      by_cases h : ((dropLastWhile p cs).isEmpty && p c) = true
      · rw [if_pos h] at hx
        exact absurd hx (by simp)
      · rw [if_neg h] at hx
        rcases List.mem_cons.mp hx with h1 | h1
        · exact h1 ▸ List.mem_cons_self _ _
        · exact List.mem_cons_of_mem _ (ih h1)

lemma mem_pyStrip {x : Char} {s : List Char} (hx : x ∈ pyStrip s) :
    x ∈ s :=
  (List.dropWhile_sublist pyIsSpace).mem (mem_dropLastWhile hx)

lemma splitOnChar_no_sep {sep : Char} :
    ∀ {s : List Char}, sep ∉ s → splitOnChar sep s = [s] := by
  intro s
  induction s with
  | nil => intro _; rfl
  | cons c cs ih =>
      intro h
      have hc : ¬ (c == sep) = true := by
        simp only [beq_iff_eq]
        intro hcs
        exact h (hcs ▸ List.mem_cons_self _ _)
      have hcs : sep ∉ cs := fun h' => h (List.mem_cons_of_mem _ h')
      unfold splitOnChar
      rw [if_neg hc, ih hcs]

set_option maxRecDepth 8192 in
/-- **C7** (amended): `split_text_to_lines` first applies the character
replacements, then strips the whole text and splits it at newlines, and
only then splits each line at `'.'`, trims each fragment and discards
the empty ones; for a newline-free text this is exactly "replace, strip,
split on `'.'`, trim, drop empties".  On the claim's example — which has
no newline — the result is exactly
`["Hello  world", "This is a test", "right now"]`, and `voice_main`'s
splitting (replace, split on `'.'`, trim, drop empties, with no newline
handling) produces the same three fragments. -/
theorem script_line_splitting (text : List Char) (h : '\n' ∉ text) :
    splitTextToLines text = scriptFragments (pyStrip (cleanScriptText text))
    ∧ splitTextToLines ("Hello: world! This is-a test, right_now.".toList) =
        ["Hello  world".toList, "This is a test".toList,
          "right now".toList]
    ∧ voiceSentences ("Hello: world! This is-a test, right_now.".toList) =
        ["Hello  world".toList, "This is a test".toList,
          "right now".toList] := by
  refine ⟨?_, by decide, by decide⟩
  have hn : '\n' ∉ pyStrip (cleanScriptText text) :=
    fun hmem => cleanScriptText_no_newline h (mem_pyStrip hmem)
  unfold splitTextToLines
  rw [splitOnChar_no_sep hn]
  simp

/-- Witness for C7 on the newline-free text `"x. y"`. -/
theorem script_line_splitting_witness :
    splitTextToLines ("x. y".toList) =
      scriptFragments (pyStrip (cleanScriptText ("x. y".toList))) :=
  (script_line_splitting ("x. y".toList) (by decide)).1

set_option maxRecDepth 8192 in
/-- Counterexample to C7 as stated: on the two-line input `"a\nb"`,
the claimed procedure (replace, split on `'.'`, trim, drop empties —
which is exactly what `voice_main` computes) yields the single fragment
`"a\nb"`, but `split_text_to_lines` splits at the newline first and
produces the two script lines `"a"` and `"b"`. -/
theorem split_text_to_lines_newline_counterexample :
    splitTextToLines ("a\nb".toList) = ["a".toList, "b".toList]
    ∧ voiceSentences ("a\nb".toList) = ["a\nb".toList]
    ∧ splitTextToLines ("a\nb".toList) ≠ ["a\nb".toList] := by
  refine ⟨by decide, by decide, by decide⟩

end Vidzyme
